import Mathlib

/-!
Shallow embedding of the geometric-algebra multivector engine from
src/main.cpp.

Coefficients (C++ float) are modelled as rational numbers; blade masks
(C++ uint64_t) as natural numbers.  The C++ while-loops that repeatedly
clear the lowest set bit of a word are modelled by structural recursion
on a fuel argument initialised with the loop variable itself: each
iteration strictly decreases the loop variable by at least one, so the
fuel never runs out and the fuel-exhausted branch is unreachable.
Unsigned 64-bit wraparound and the uint64-to-int32 truncation performed
by the C++ sign computations are modelled explicitly with mod 2^64 and
mod 2^32 arithmetic.  The assertion inside MinkowskiSignature::value is
modelled by an Option-valued signature function, and the operations that
can reach it (geometric product, commutator, anticommutator) are
Option-valued; the assertion in basis_vector is modelled the same way.
-/

/-- A blade: a coefficient together with a basis mask (bit i set means
basis vector i participates).  Mirrors struct Blade in src/main.cpp. -/
structure Blade where
  coefficient : ℚ
  mask : Nat
deriving DecidableEq, Repr

/-- A metric signature: a maximal dimension and a per-index square of
the corresponding basis vector.  The value function is Option-valued
because MinkowskiSignature::value asserts on out-of-range indices.
Both signature tables of the source contain only 0 and 1. -/
structure Signature where
  maxDim : Nat
  value : Nat → Option Nat

/-- EuclideanSignature from src/main.cpp: value ignores its index and
always returns 1; no assertion. -/
def EuclideanSignature (d : Nat) : Signature where
  maxDim := d
  value := fun _ => some 1

/-- MinkowskiSignature from src/main.cpp: the fixed table {1,0,0,0},
with value asserting that the index is below max_dimension() = 4. -/
def MinkowskiSignature : Signature where
  maxDim := 4
  value := fun i => if i < 4 then some ([1, 0, 0, 0].getD i 0) else none

/-- Fuel-driven population count; models __builtin_popcountll. -/
def popcountGo : Nat → Nat → Nat → Nat
  | 0, _, acc => acc
  | fuel + 1, n, acc => if n = 0 then acc else popcountGo fuel (n / 2) (acc + n % 2)

/-- Population count of a natural number (__builtin_popcountll). -/
def popcount (n : Nat) : Nat := popcountGo n n 0

/-- Fuel-driven count of trailing zero bits; models __builtin_ctzll,
which the source only applies to nonzero words. -/
def ctzGo : Nat → Nat → Nat
  | 0, _ => 0
  | fuel + 1, n => if n % 2 = 1 then 0 else ctzGo fuel (n / 2) + 1

/-- Count of trailing zero bits (__builtin_ctzll), used on nonzero input. -/
def ctz (n : Nat) : Nat := ctzGo n n

/-- Truncation of an unsigned value to int32_t, as two-s complement. -/
def toInt32 (n : Nat) : Int :=
  if n % 2 ^ 32 < 2 ^ 31 then ((n % 2 ^ 32 : Nat) : Int)
  else ((n % 2 ^ 32 : Nat) : Int) - 2 ^ 32

/-- Subtraction of uint64_t values with wraparound. -/
def u64sub (a b : Nat) : Nat := (a % 2 ^ 64 + (2 ^ 64 - b % 2 ^ 64)) % 2 ^ 64

/-- A multivector is the blade collection m_blades of the C++ class. -/
abbrev Multivector : Type := List Blade

namespace Multivector

/-- Scan of the blade list merging a coefficient into the first blade of
equal mask, else appending; the loop body of Multivector::add_blade. -/
def mergeGo (coeff : ℚ) (mask : Nat) : List Blade → List Blade
  | [] => [⟨coeff, mask⟩]
  | b :: rest =>
    if b.mask = mask then ⟨b.coefficient + coeff, b.mask⟩ :: rest
    else b :: mergeGo coeff mask rest

/-- Multivector::add_blade: exactly-zero coefficients are not inserted;
otherwise merge into an existing blade of the same mask or append. -/
def add_blade (v : Multivector) (coeff : ℚ) (mask : Nat) : Multivector :=
  if coeff = 0 then v else mergeGo coeff mask v

/-- Multivector::create: fold every given blade into an initially empty
multivector via add_blade, in the given order. -/
def create (blades : List Blade) : Multivector :=
  blades.foldl (fun v b => add_blade v b.coefficient b.mask) []

/-- Multivector::basis_vector: asserts i below max_dimension, then a
single unit blade with mask 1 shifted left by i. -/
def basis_vector (sig : Signature) (i : Nat) : Option Multivector :=
  if i < sig.maxDim then some (add_blade [] 1 (1 <<< i)) else none

/-- Multivector::operator+: copy the left operand, insert every blade of
the right operand via add_blade. -/
def add (v other : Multivector) : Multivector :=
  other.foldl (fun r b => add_blade r b.coefficient b.mask) v

/-- Multivector::operator-: copy the left operand, insert every blade of
the right operand with negated coefficient. -/
def sub (v other : Multivector) : Multivector :=
  other.foldl (fun r b => add_blade r (-b.coefficient) b.mask) v

/-- Multivector::operator*(float): insert every blade with coefficient
multiplied by the scalar into a fresh multivector. -/
def smul (v : Multivector) (scalar : ℚ) : Multivector :=
  v.foldl (fun r b => add_blade r (scalar * b.coefficient) b.mask) []

/-- The friend operator*(float, Multivector), defined as v * scalar. -/
def smulLeft (scalar : ℚ) (v : Multivector) : Multivector := smul v scalar

/-- The while loop of Multivector::blade_parity: for each set bit of b
from lowest to highest, XOR in the parity of the count of bits of a
strictly below that bit. -/
def bladeParityGo (a : Nat) : Nat → Nat → Nat → Nat
  | 0, _, parity => parity
  | fuel + 1, b, parity =>
    if b = 0 then parity
    else
      bladeParityGo a fuel (b &&& (b - 1))
        (parity ^^^ (popcount (a &&& ((1 <<< ctz b) - 1)) &&& 1))

/-- Multivector::blade_parity. -/
def blade_parity (a b : Nat) : Nat := bladeParityGo a b b 0 &&& 1

/-- The metric loop of Multivector::sign: for each bit set in both
masks, XOR the signature value at that index into the parity; fails if
the signature value assertion fails. -/
def signGo (sig : Signature) : Nat → Nat → Nat → Option Nat
  | 0, _, parity => some parity
  | fuel + 1, repeated, parity =>
    if repeated = 0 then some parity
    else
      match sig.value (ctz repeated) with
      | none => none
      | some v => signGo sig fuel (repeated &&& (repeated - 1)) (parity ^^^ v)

/-- The accumulated parity of Multivector::sign just before the final
conversion 2 * parity - 1: the permutation parity of blade_parity with
the metric signature values of the repeated indices XORed in. -/
def parityAcc (sig : Signature) (a b : Nat) : Option Nat :=
  signGo sig (a &&& b) (a &&& b) (blade_parity a b)

/-- The final line of Multivector::sign: 2 * parity - 1 evaluated in
uint64_t arithmetic and truncated to int32_t. -/
def signOfParity (parity : Nat) : Int := toInt32 (u64sub (2 * parity) 1)

/-- Multivector::sign. -/
def sign (sig : Signature) (a b : Nat) : Option Int :=
  (parityAcc sig a b).map signOfParity

/-- Inner loop of the geometric product: one blade of the left operand
against every blade of the right operand, accumulating into result. -/
def mulRow (sig : Signature) (a : Blade) : List Blade → Multivector → Option Multivector
  | [], result => some result
  | b :: rest, result =>
    match sign sig a.mask b.mask with
    | none => none
    | some s =>
      mulRow sig a rest
        (add_blade result (a.coefficient * b.coefficient * (s : ℚ)) (a.mask ^^^ b.mask))

/-- Outer loop of the geometric product over the left operand. -/
def mulGo (sig : Signature) : List Blade → List Blade → Multivector → Option Multivector
  | [], _, result => some result
  | a :: rest, other, result =>
    match mulRow sig a other result with
    | none => none
    | some r => mulGo sig rest other r

/-- Multivector::operator*(const Multivector): the geometric product. -/
def mul (sig : Signature) (v other : Multivector) : Option Multivector :=
  mulGo sig v other []

/-- The per-blade sign of Multivector::reverse: 1 - 2 * parity with
parity = grade * (grade - 1) / 2 % 2, evaluated in uint64_t arithmetic
and truncated to int32_t. -/
def reverseSign (mask : Nat) : Int :=
  toInt32 (u64sub 1 (2 * (popcount mask * (popcount mask - 1) / 2 % 2)))

/-- Multivector::reverse. -/
def reverse (v : Multivector) : Multivector :=
  v.foldl (fun r b => add_blade r (b.coefficient * (reverseSign b.mask : ℚ)) b.mask) []

/-- Multivector::commutator: A * B - B * A. -/
def commutator (sig : Signature) (A B : Multivector) : Option Multivector :=
  match mul sig A B, mul sig B A with
  | some x, some y => some (sub x y)
  | _, _ => none

/-- Multivector::anticommutator: A * B + B * A. -/
def anticommutator (sig : Signature) (A B : Multivector) : Option Multivector :=
  match mul sig A B, mul sig B A with
  | some x, some y => some (add x y)
  | _, _ => none

/-- The list of masks of a multivector, for the uniqueness invariant. -/
def masks (v : Multivector) : List Nat := v.map Blade.mask

/-- Total coefficient of a given mask in a blade list (the represented
scalar weight of that basis blade; 0 when the mask is absent). -/
def coeffOf : Multivector → Nat → ℚ
  | [], _ => 0
  | b :: rest, m => (if b.mask = m then b.coefficient else 0) + coeffOf rest m

end Multivector

unseal Rat.add Rat.mul Rat.sub

namespace Multivector

theorem masks_append (v w : Multivector) : masks (v ++ w) = masks v ++ masks w :=
  List.map_append Blade.mask v w

theorem mergeGo_masks_mem (c : ℚ) (m : Nat) (v : Multivector) (h : m ∈ masks v) :
    masks (mergeGo c m v) = masks v := by
  induction v with
  | nil => simp [masks] at h
  | cons b rest ih =>
    by_cases hb : b.mask = m
    · simp [mergeGo, hb, masks]
    · have hr : m ∈ masks rest := by
        rcases List.mem_cons.mp h with h0 | h0
        · exact absurd h0.symm hb
        · exact h0
      have hrec := ih hr
      simp only [mergeGo, if_neg hb, masks, List.map_cons] at hrec ⊢
      rw [hrec]

theorem mergeGo_not_mem (c : ℚ) (m : Nat) (v : Multivector) (h : m ∉ masks v) :
    mergeGo c m v = v ++ [⟨c, m⟩] := by
  induction v with
  | nil => rfl
  | cons b rest ih =>
    have hb : b.mask ≠ m := fun he => h (by simp [masks, he])
    have hr : m ∉ masks rest := fun hm => h (by simp [masks] at hm ⊢; exact Or.inr hm)
    simp [mergeGo, hb, ih hr]

theorem add_blade_masks (v : Multivector) (c : ℚ) (m : Nat) :
    masks (add_blade v c m) = masks v ∨
      (m ∉ masks v ∧ masks (add_blade v c m) = masks v ++ [m]) := by
  by_cases hc : c = 0
  · exact Or.inl (by rw [add_blade, if_pos hc])
  · by_cases hm : m ∈ masks v
    · exact Or.inl (by rw [add_blade, if_neg hc]; exact mergeGo_masks_mem c m v hm)
    · refine Or.inr ⟨hm, ?_⟩
      rw [add_blade, if_neg hc, mergeGo_not_mem c m v hm, masks_append]
      rfl

theorem add_blade_fresh (v : Multivector) (c : ℚ) (m : Nat) (hc : c ≠ 0)
    (hm : m ∉ masks v) : add_blade v c m = v ++ [⟨c, m⟩] := by
  rw [add_blade, if_neg hc, mergeGo_not_mem c m v hm]

theorem add_blade_nodup (v : Multivector) (c : ℚ) (m : Nat) (h : (masks v).Nodup) :
    (masks (add_blade v c m)).Nodup := by
  rcases add_blade_masks v c m with he | ⟨hm, he⟩
  · rw [he]; exact h
  · rw [he, List.nodup_append]
    refine ⟨h, List.nodup_singleton m, ?_⟩
    intro x hx hx'
    simp at hx'
    exact hm (hx' ▸ hx)

theorem foldl_add_blade_nodup {α : Type} (g : α → ℚ) (h : α → Nat) (L : List α) :
    ∀ acc : Multivector, (masks acc).Nodup →
      (masks (L.foldl (fun r x => add_blade r (g x) (h x)) acc)).Nodup := by
  induction L with
  | nil => intro acc hacc; exact hacc
  | cons x xs ih =>
    intro acc hacc
    exact ih (add_blade acc (g x) (h x)) (add_blade_nodup acc (g x) (h x) hacc)

theorem foldl_add_blade_fresh {α : Type} (g : α → ℚ) (h : α → Nat) (L : List α) :
    ∀ acc : Multivector, (L.map h).Nodup → (∀ x ∈ L, g x ≠ 0) →
      (∀ x ∈ L, h x ∉ masks acc) →
      L.foldl (fun r x => add_blade r (g x) (h x)) acc
        = acc ++ L.map (fun x => ⟨g x, h x⟩) := by
  induction L with
  | nil => intro acc _ _ _; simp
  | cons x xs ih =>
    intro acc hnd hnz hdisj
    have hx : add_blade acc (g x) (h x) = acc ++ [⟨g x, h x⟩] :=
      add_blade_fresh acc (g x) (h x) (hnz x (by simp)) (hdisj x (by simp))
    have hnd' : (xs.map h).Nodup := (List.nodup_cons.mp hnd).2
    have hxs : h x ∉ xs.map h := (List.nodup_cons.mp hnd).1
    have hdisj' : ∀ y ∈ xs, h y ∉ masks (acc ++ [⟨g x, h x⟩]) := by
      intro y hy hmem
      rw [masks_append] at hmem
      rcases List.mem_append.mp hmem with hm | hm
      · exact hdisj y (by simp [hy]) hm
      · simp [masks] at hm
        exact hxs (hm ▸ List.mem_map_of_mem h hy)
    calc (x :: xs).foldl (fun r y => add_blade r (g y) (h y)) acc
        = xs.foldl (fun r y => add_blade r (g y) (h y)) (acc ++ [⟨g x, h x⟩]) := by
          rw [List.foldl_cons, hx]
      _ = acc ++ [⟨g x, h x⟩] ++ xs.map (fun y => ⟨g y, h y⟩) := by
          exact ih (acc ++ [⟨g x, h x⟩]) hnd' (fun y hy => hnz y (by simp [hy])) hdisj'
      _ = acc ++ (x :: xs).map (fun y => ⟨g y, h y⟩) := by simp

theorem coeffOf_append (v w : Multivector) (m : Nat) :
    coeffOf (v ++ w) m = coeffOf v m + coeffOf w m := by
  induction v with
  | nil => simp [coeffOf]
  | cons b rest ih =>
    simp only [List.cons_append, coeffOf, List.append_eq, ih]
    ring

theorem coeffOf_mergeGo (v : Multivector) (c : ℚ) (m0 m : Nat) :
    coeffOf (mergeGo c m0 v) m = coeffOf v m + (if m0 = m then c else 0) := by
  induction v with
  | nil => simp only [mergeGo, coeffOf]; split <;> ring
  | cons b rest ih =>
    by_cases hb : b.mask = m0
    · simp only [mergeGo, if_pos hb, coeffOf, hb]
      split <;> ring
    · simp only [mergeGo, if_neg hb, coeffOf, ih]
      ring

theorem coeffOf_add_blade (v : Multivector) (c : ℚ) (m0 m : Nat) :
    coeffOf (add_blade v c m0) m = coeffOf v m + (if m0 = m then c else 0) := by
  by_cases hc : c = 0
  · rw [add_blade, if_pos hc, hc]
    split <;> ring
  · rw [add_blade, if_neg hc, coeffOf_mergeGo]

theorem coeffOf_foldl {α : Type} (g : α → ℚ) (h : α → Nat) (L : List α) (m : Nat) :
    ∀ acc : Multivector,
      coeffOf (L.foldl (fun r x => add_blade r (g x) (h x)) acc) m
        = coeffOf acc m + (L.map (fun x => if h x = m then g x else 0)).sum := by
  induction L with
  | nil => intro acc; simp
  | cons x xs ih =>
    intro acc
    rw [List.foldl_cons, ih, coeffOf_add_blade, List.map_cons, List.sum_cons]
    ring

theorem coeffOf_eq_sum (v : Multivector) (m : Nat) :
    coeffOf v m = (v.map (fun b => if b.mask = m then b.coefficient else 0)).sum := by
  induction v with
  | nil => rfl
  | cons b rest ih => simp [coeffOf, ih]

theorem sum_map_neg {α : Type} (L : List α) (f : α → ℚ) :
    (L.map (fun x => -f x)).sum = -(L.map f).sum := by
  induction L with
  | nil => simp
  | cons x xs ih => simp [ih]; ring

theorem coeffOf_sub (A B : Multivector) (m : Nat) :
    coeffOf (sub A B) m = coeffOf A m - coeffOf B m := by
  have h1 := coeffOf_foldl (fun b : Blade => -b.coefficient) Blade.mask B m A
  have h2 : (fun b : Blade => if b.mask = m then -b.coefficient else 0)
      = fun b : Blade => -(if b.mask = m then b.coefficient else 0) := by
    funext b; split <;> simp
  rw [sub, h1, h2, sum_map_neg, ← coeffOf_eq_sum]
  ring

theorem coeffOf_add (A B : Multivector) (m : Nat) :
    coeffOf (add A B) m = coeffOf A m + coeffOf B m := by
  have h1 := coeffOf_foldl (fun b : Blade => b.coefficient) Blade.mask B m A
  rw [add, h1, ← coeffOf_eq_sum]

theorem coeffOf_smul (A : Multivector) (s : ℚ) (m : Nat) :
    coeffOf (smul A s) m = s * coeffOf A m := by
  have h1 := coeffOf_foldl (fun b : Blade => s * b.coefficient) Blade.mask A m []
  have h2 : (fun b : Blade => if b.mask = m then s * b.coefficient else 0)
      = fun b : Blade => s * (if b.mask = m then b.coefficient else 0) := by
    funext b; split <;> simp
  rw [smul, h1, h2, List.sum_map_mul_left, ← coeffOf_eq_sum, coeffOf]
  ring

theorem signOfParity_zero : signOfParity 0 = -1 := by decide

theorem signOfParity_one : signOfParity 1 = 1 := by decide

theorem reverseSign_eq (mask : Nat) : reverseSign mask = 1 ∨ reverseSign mask = -1 := by
  have h2 : popcount mask * (popcount mask - 1) / 2 % 2 = 0 ∨
      popcount mask * (popcount mask - 1) / 2 % 2 = 1 := by omega
  rcases h2 with h | h <;> rw [reverseSign, h]
  · left; decide
  · right; decide

theorem reverseSign_sq (mask : Nat) :
    ((reverseSign mask : ℚ)) * ((reverseSign mask : ℚ)) = 1 := by
  rcases reverseSign_eq mask with h | h <;> rw [h] <;> norm_num

theorem reverseSign_cast_ne_zero (mask : Nat) : (reverseSign mask : ℚ) ≠ 0 := by
  rcases reverseSign_eq mask with h | h <;> rw [h] <;> norm_num

theorem popcount_zero : popcount 0 = 0 := rfl

theorem bladeParityGo_zero_left (fuel : Nat) :
    ∀ b parity : Nat, bladeParityGo 0 fuel b parity = parity := by
  induction fuel with
  | zero => intro b parity; rfl
  | succ n ih =>
    intro b parity
    by_cases hb : b = 0
    · simp [bladeParityGo, hb]
    · simp [bladeParityGo, hb, Nat.zero_and, popcount_zero, Nat.xor_zero, ih]

theorem blade_parity_zero_left (b : Nat) : blade_parity 0 b = 0 := by
  rw [blade_parity, bladeParityGo_zero_left]
  exact Nat.zero_and 1

theorem blade_parity_zero_right (a : Nat) : blade_parity a 0 = 0 := by
  rw [blade_parity]
  rw [show bladeParityGo a 0 0 0 = 0 from rfl]
  exact Nat.zero_and 1

theorem sign_zero_left (sig : Signature) (m : Nat) : sign sig 0 m = some (-1) := by
  rw [sign, parityAcc, blade_parity_zero_left, Nat.zero_and]
  rfl

theorem sign_zero_right (sig : Signature) (m : Nat) : sign sig m 0 = some (-1) := by
  rw [sign, parityAcc, blade_parity_zero_right, Nat.and_zero]
  rfl

theorem mulRow_scalar_left (sig : Signature) (B : List Blade) :
    ∀ acc : Multivector,
      mulRow sig ⟨1, 0⟩ B acc
        = some (B.foldl (fun r b => add_blade r (-b.coefficient) b.mask) acc) := by
  induction B with
  | nil => intro acc; rfl
  | cons b rest ih =>
    intro acc
    simp only [mulRow, sign_zero_left, Nat.zero_xor, Int.cast_neg, Int.cast_one,
      one_mul, mul_neg_one, List.foldl_cons]
    exact ih _

theorem mulGo_scalar_right (sig : Signature) (A : List Blade) :
    ∀ acc : Multivector,
      mulGo sig A [⟨1, 0⟩] acc
        = some (A.foldl (fun r a => add_blade r (-a.coefficient) a.mask) acc) := by
  induction A with
  | nil => intro acc; rfl
  | cons a rest ih =>
    intro acc
    simp only [mulGo, mulRow, sign_zero_right, Nat.xor_zero, Int.cast_neg, Int.cast_one,
      mul_one, mul_neg_one, List.foldl_cons]
    exact ih _

theorem foldl_neg_map (A : Multivector) (hnd : (masks A).Nodup)
    (hnz : ∀ b ∈ A, b.coefficient ≠ 0) :
    A.foldl (fun r b => add_blade r (-b.coefficient) b.mask) []
      = A.map (fun b => ⟨-b.coefficient, b.mask⟩) := by
  have h := foldl_add_blade_fresh (fun b : Blade => -b.coefficient) Blade.mask A []
    hnd (fun b hb => neg_ne_zero.mpr (hnz b hb)) (fun b _ hmem => by simp [masks] at hmem)
  simpa using h

theorem signGo_euclid_some (d : Nat) (fuel : Nat) :
    ∀ r p : Nat, ∃ q, signGo (EuclideanSignature d) fuel r p = some q := by
  induction fuel with
  | zero => intro r p; exact ⟨p, rfl⟩
  | succ n ih =>
    intro r p
    by_cases hr : r = 0
    · exact ⟨p, by simp [signGo, hr]⟩
    · simpa [signGo, hr, EuclideanSignature] using ih (r &&& (r - 1)) (p ^^^ 1)

theorem sign_euclid_some (d a b : Nat) :
    ∃ s, sign (EuclideanSignature d) a b = some s := by
  obtain ⟨q, hq⟩ := signGo_euclid_some d (a &&& b) (a &&& b) (blade_parity a b)
  exact ⟨signOfParity q, by rw [sign, parityAcc, hq]; rfl⟩

theorem mulRow_euclid_some (d : Nat) (a : Blade) (B : List Blade) :
    ∀ acc : Multivector, ∃ r, mulRow (EuclideanSignature d) a B acc = some r := by
  induction B with
  | nil => intro acc; exact ⟨acc, rfl⟩
  | cons b rest ih =>
    intro acc
    obtain ⟨s, hs⟩ := sign_euclid_some d a.mask b.mask
    obtain ⟨r, hr⟩ := ih (add_blade acc (a.coefficient * b.coefficient * (s : ℚ)) (a.mask ^^^ b.mask))
    exact ⟨r, by simp only [mulRow, hs]; exact hr⟩

theorem mulGo_euclid_some (d : Nat) (A B : List Blade) :
    ∀ acc : Multivector, ∃ r, mulGo (EuclideanSignature d) A B acc = some r := by
  induction A with
  | nil => intro acc; exact ⟨acc, rfl⟩
  | cons a rest ih =>
    intro acc
    obtain ⟨r1, hr1⟩ := mulRow_euclid_some d a B acc
    obtain ⟨r2, hr2⟩ := ih r1
    exact ⟨r2, by simp only [mulGo, hr1]; exact hr2⟩

theorem mul_euclid_some (d : Nat) (A B : Multivector) :
    ∃ r, mul (EuclideanSignature d) A B = some r :=
  mulGo_euclid_some d A B []

theorem mulRow_nodup (sig : Signature) (a : Blade) (B : List Blade) :
    ∀ (acc r : Multivector), mulRow sig a B acc = some r → (masks acc).Nodup →
      (masks r).Nodup := by
  induction B with
  | nil =>
    intro acc r h hacc
    simp only [mulRow, Option.some.injEq] at h
    exact h ▸ hacc
  | cons b rest ih =>
    intro acc r h hacc
    cases hs : sign sig a.mask b.mask with
    | none => simp only [mulRow, hs] at h; exact Option.noConfusion h
    | some s =>
      simp only [mulRow, hs] at h
      exact ih _ r h (add_blade_nodup _ _ _ hacc)

theorem mulGo_nodup (sig : Signature) (A B : List Blade) :
    ∀ (acc r : Multivector), mulGo sig A B acc = some r → (masks acc).Nodup →
      (masks r).Nodup := by
  induction A with
  | nil =>
    intro acc r h hacc
    simp only [mulGo, Option.some.injEq] at h
    exact h ▸ hacc
  | cons a rest ih =>
    intro acc r h hacc
    cases hrow : mulRow sig a B acc with
    | none => simp only [mulGo, hrow] at h; exact Option.noConfusion h
    | some r1 =>
      simp only [mulGo, hrow] at h
      exact ih _ r h (mulRow_nodup sig a B acc r1 hrow hacc)

theorem mul_nodup (sig : Signature) (A B : Multivector) (r : Multivector)
    (h : mul sig A B = some r) : (masks r).Nodup :=
  mulGo_nodup sig A B [] r h (by simp [masks])

theorem sub_smul_neg_coeff (P Q : Multivector) (m : Nat) :
    coeffOf (sub P Q) m = coeffOf (smul (sub Q P) (-1)) m := by
  rw [coeffOf_smul, coeffOf_sub, coeffOf_sub]
  ring

theorem xor_le_one (p v : Nat) (hp : p ≤ 1) (hv : v ≤ 1) : p ^^^ v ≤ 1 := by
  interval_cases p <;> interval_cases v <;> decide

theorem blade_parity_le_one (a b : Nat) : blade_parity a b ≤ 1 :=
  Nat.and_le_right

theorem signGo_le_one (sig : Signature)
    (hsig : ∀ i v, sig.value i = some v → v ≤ 1) (fuel : Nat) :
    ∀ r p q : Nat, p ≤ 1 → signGo sig fuel r p = some q → q ≤ 1 := by
  induction fuel with
  | zero =>
    intro r p q hp h
    injection h with h
    rw [← h]
    exact hp
  | succ n ih =>
    intro r p q hp h
    by_cases hr : r = 0
    · simp only [signGo, hr, if_true, Option.some.injEq] at h
      rw [← h]
      exact hp
    · cases hv : sig.value (ctz r) with
      | none =>
        simp only [signGo, hv, if_neg hr] at h
        exact Option.noConfusion h
      | some v =>
        simp only [signGo, hv, if_neg hr] at h
        exact ih _ _ q (xor_le_one p v hp (hsig _ _ hv)) h

theorem parityAcc_le_one (sig : Signature)
    (hsig : ∀ i v, sig.value i = some v → v ≤ 1) (a b p : Nat)
    (h : parityAcc sig a b = some p) : p ≤ 1 :=
  signGo_le_one sig hsig (a &&& b) (a &&& b) (blade_parity a b) p
    (blade_parity_le_one a b) h

theorem basis_vector_euclid (d i : Nat) (h : i < d) :
    basis_vector (EuclideanSignature d) i = some [⟨1, 1 <<< i⟩] := by
  rw [basis_vector, if_pos (show i < (EuclideanSignature d).maxDim from h)]
  rw [add_blade, if_neg (by norm_num : (1 : ℚ) ≠ 0)]
  rfl

theorem reverse_map (A : Multivector) (hnd : (masks A).Nodup)
    (hnz : ∀ b ∈ A, b.coefficient ≠ 0) :
    reverse A = A.map (fun b => ⟨b.coefficient * (reverseSign b.mask : ℚ), b.mask⟩) := by
  rw [reverse]
  have h := foldl_add_blade_fresh
    (fun b : Blade => b.coefficient * (reverseSign b.mask : ℚ)) Blade.mask A []
    hnd (fun b hb => mul_ne_zero (hnz b hb) (reverseSign_cast_ne_zero b.mask))
    (fun b _ hm => by simp [masks] at hm)
  simpa using h

end Multivector

/-- C3 counterexample: under the Minkowski signature, the geometric
product of the multivector created from the single blade (1, mask 16)
with itself reaches MinkowskiSignature::value with index 4, whose
assertion fails: the claim that no operation built by create with
arbitrary 64-bit masks can hit an assertion under either signature is
false at this input. -/
theorem c3_counterexample :
    Multivector.mul MinkowskiSignature (Multivector.create [⟨1, 16⟩])
      (Multivector.create [⟨1, 16⟩]) = none := by decide

/-- C3 (amended): except for the basis-vector-index precondition of
basis_vector, every engine operation under the EUCLIDEAN signature is a
total function: addition, subtraction, scalar multiplication and reverse
are total by construction, and the geometric product, commutator and
anticommutator always return a value for all inputs, including
multivectors built by create with arbitrary masks. -/
theorem c3_totality :
    ∀ (d : Nat) (A B : Multivector),
      (Multivector.mul (EuclideanSignature d) A B).isSome
      ∧ (Multivector.commutator (EuclideanSignature d) A B).isSome
      ∧ (Multivector.anticommutator (EuclideanSignature d) A B).isSome := by
  intro d A B
  obtain ⟨x, hx⟩ := Multivector.mul_euclid_some d A B
  obtain ⟨y, hy⟩ := Multivector.mul_euclid_some d B A
  refine ⟨by simp [hx], ?_, ?_⟩
  · simp [Multivector.commutator, hx, hy]
  · simp [Multivector.anticommutator, hx, hy]

/-- C4 counterexample: create((1,0),(-1,0)) merges to a summed
coefficient of exactly zero and the blade is NOT dropped: the result is
the one-blade collection with coefficient 0, so an operation result can
contain a blade with coefficient exactly zero, contrary to the claim. -/
theorem c4_counterexample :
    Multivector.create [⟨1, 0⟩, ⟨-1, 0⟩] = [⟨0, 0⟩]
    ∧ (0 : ℚ) ∈ (Multivector.create [⟨1, 0⟩, ⟨-1, 0⟩]).map Blade.coefficient := by
  decide

/-- C4 (amended): when the merge rule folds a blade into an existing
blade of the same mask, the blade is never dropped, even if the summed
coefficient becomes exactly zero: an insertion either leaves the mask
list unchanged or appends the new mask at the end. -/
theorem c4_insertion_never_drops :
    ∀ (v : Multivector) (c : ℚ) (m : Nat),
      Multivector.masks (Multivector.add_blade v c m) = Multivector.masks v ∨
        Multivector.masks (Multivector.add_blade v c m)
          = Multivector.masks v ++ [m] := by
  intro v c m
  rcases Multivector.add_blade_masks v c m with h | ⟨_, h⟩
  · exact Or.inl h
  · exact Or.inr h

/-- C5: for every mask m, create((1,m),(-1,m)) yields exactly one blade
with mask m and coefficient 0 (not an empty multivector): a blade whose
coefficient sums to zero through merging is kept, while a blade that is
exactly zero at insertion time is never inserted (add_blade with
coefficient 0 is a no-op). -/
theorem c5_zero_coeff_semantics :
    (∀ m : Nat, Multivector.create [⟨1, m⟩, ⟨-1, m⟩] = [⟨0, m⟩])
    ∧ ∀ (v : Multivector) (m : Nat), Multivector.add_blade v 0 m = v := by
  constructor
  · intro m
    have h1 : Multivector.add_blade [] 1 m = [⟨1, m⟩] := by
      rw [Multivector.add_blade, if_neg (by norm_num : (1 : ℚ) ≠ 0)]
      rfl
    show Multivector.add_blade (Multivector.add_blade [] 1 m) (-1) m = [⟨0, m⟩]
    rw [h1, Multivector.add_blade, if_neg (by norm_num : (-1 : ℚ) ≠ 0)]
    simp [Multivector.mergeGo]
  · intro v m
    rw [Multivector.add_blade, if_pos rfl]

/-- C8 counterexample: with A = B = the single blade (1, mask 1) under
the Euclidean signature, commutator(A,B) is the one-blade collection
with coefficient 0 and mask 0, while -1 * commutator(B,A) is the empty
collection (the scalar pass drops the zero coefficient), so the two are
not the same blade set. -/
theorem c8_counterexample :
    Multivector.commutator (EuclideanSignature 4) [⟨1, 1⟩] [⟨1, 1⟩] = some [⟨0, 0⟩]
    ∧ Multivector.smul [⟨0, 0⟩] (-1) = []
    ∧ ([⟨0, 0⟩] : Multivector) ≠ [] := by decide

/-- C8 (amended): commutator(A,B) equals -1 * commutator(B,A) as a
represented multivector value: for every mask, the total coefficient of
that mask in commutator(A,B) equals its total coefficient in
-1 * commutator(B,A) (the blade lists may differ in zero-coefficient
blades and order, but never in coefficient weight). -/
theorem c8_commutator_antisym :
    ∀ (sig : Signature) (A B X Y : Multivector),
      Multivector.commutator sig A B = some X →
      Multivector.commutator sig B A = some Y →
      ∀ m : Nat,
        Multivector.coeffOf X m = Multivector.coeffOf (Multivector.smul Y (-1)) m := by
  intro sig A B X Y hX hY m
  cases hab : Multivector.mul sig A B with
  | none =>
    simp only [Multivector.commutator, hab] at hX
    exact Option.noConfusion hX
  | some P =>
    cases hba : Multivector.mul sig B A with
    | none =>
      simp only [Multivector.commutator, hab, hba] at hX
      exact Option.noConfusion hX
    | some Q =>
      simp only [Multivector.commutator, hab, hba, Option.some.injEq] at hX hY
      rw [← hX, ← hY]
      exact Multivector.sub_smul_neg_coeff P Q m

/-- C8 witness: the amended antisymmetry at sig = Euclidean 4,
A = (1, mask 1), B = (1, mask 2), with commutator(A,B) = (2, mask 3)
and commutator(B,A) = (-2, mask 3), compared at mask 3. -/
theorem c8_witness :
    Multivector.coeffOf [⟨2, 3⟩] 3
      = Multivector.coeffOf (Multivector.smul [⟨-2, 3⟩] (-1)) 3 :=
  c8_commutator_antisym (EuclideanSignature 4) [⟨1, 1⟩] [⟨1, 2⟩] [⟨2, 3⟩] [⟨-2, 3⟩]
    (by decide) (by decide) 3

/-- C9: mask uniqueness is an invariant of every operation: every
multivector returned by create, basis_vector, addition (of an operand
satisfying the invariant), subtraction, scalar multiplication, geometric
product, reverse, commutator or anticommutator contains no two blades
with the same mask. -/
theorem c9_mask_uniqueness :
    ∀ (sig : Signature) (blades : List Blade) (i : Nat) (A B : Multivector) (s : ℚ),
      (Multivector.masks (Multivector.create blades)).Nodup
      ∧ (∀ r, Multivector.basis_vector sig i = some r → (Multivector.masks r).Nodup)
      ∧ ((Multivector.masks A).Nodup → (Multivector.masks (Multivector.add A B)).Nodup)
      ∧ ((Multivector.masks A).Nodup → (Multivector.masks (Multivector.sub A B)).Nodup)
      ∧ (Multivector.masks (Multivector.smul A s)).Nodup
      ∧ (∀ r, Multivector.mul sig A B = some r → (Multivector.masks r).Nodup)
      ∧ (Multivector.masks (Multivector.reverse A)).Nodup
      ∧ (∀ r, Multivector.commutator sig A B = some r → (Multivector.masks r).Nodup)
      ∧ (∀ r, Multivector.anticommutator sig A B = some r →
          (Multivector.masks r).Nodup) := by
  intro sig blades i A B s
  have hnil : (Multivector.masks ([] : Multivector)).Nodup := by
    simp [Multivector.masks]
  refine ⟨?_, ?_, ?_, ?_, ?_, ?_, ?_, ?_, ?_⟩
  · exact Multivector.foldl_add_blade_nodup _ _ blades [] hnil
  · intro r hr
    rw [Multivector.basis_vector] at hr
    split at hr
    · injection hr with hr
      rw [← hr]
      exact Multivector.add_blade_nodup [] 1 _ hnil
    · exact Option.noConfusion hr
  · intro hA
    exact Multivector.foldl_add_blade_nodup _ _ B A hA
  · intro hA
    exact Multivector.foldl_add_blade_nodup _ _ B A hA
  · exact Multivector.foldl_add_blade_nodup _ _ A [] hnil
  · intro r hr
    exact Multivector.mul_nodup sig A B r hr
  · exact Multivector.foldl_add_blade_nodup _ _ A [] hnil
  · intro r hr
    cases hab : Multivector.mul sig A B with
    | none =>
      simp only [Multivector.commutator, hab] at hr
      exact Option.noConfusion hr
    | some P =>
      cases hba : Multivector.mul sig B A with
      | none =>
        simp only [Multivector.commutator, hab, hba] at hr
        exact Option.noConfusion hr
      | some Q =>
        simp only [Multivector.commutator, hab, hba, Option.some.injEq] at hr
        rw [← hr]
        exact Multivector.foldl_add_blade_nodup _ _ Q P
          (Multivector.mul_nodup sig A B P hab)
  · intro r hr
    cases hab : Multivector.mul sig A B with
    | none =>
      simp only [Multivector.anticommutator, hab] at hr
      exact Option.noConfusion hr
    | some P =>
      cases hba : Multivector.mul sig B A with
      | none =>
        simp only [Multivector.anticommutator, hab, hba] at hr
        exact Option.noConfusion hr
      | some Q =>
        simp only [Multivector.anticommutator, hab, hba, Option.some.injEq] at hr
        rw [← hr]
        exact Multivector.foldl_add_blade_nodup _ _ Q P
          (Multivector.mul_nodup sig A B P hab)

/-- C9 witness: the invariant instantiated at concrete inputs, with the
addition and subtraction hypotheses discharged by evaluation. -/
theorem c9_witness :
    (Multivector.masks (Multivector.create [⟨1, 0⟩, ⟨2, 1⟩])).Nodup
    ∧ (Multivector.masks (Multivector.add [⟨1, 1⟩] [⟨2, 2⟩])).Nodup
    ∧ (Multivector.masks (Multivector.sub [⟨1, 1⟩] [⟨2, 2⟩])).Nodup := by
  have h := c9_mask_uniqueness (EuclideanSignature 4) [⟨1, 0⟩, ⟨2, 1⟩] 0
    [⟨1, 1⟩] [⟨2, 2⟩] 3
  exact ⟨h.1, h.2.2.1 (by decide), h.2.2.2.1 (by decide)⟩

/-- C1 counterexample: at masks a = 0, b = 0 under the Euclidean
signature the accumulated parity is 0 (even), yet the sign factor is not
+1: the uint64 expression 2 * parity - 1 wraps to 0xFFFF...F and
truncates to int32 -1, so the claimed even-to-plus-one convention is
false at this input. -/
theorem c1_counterexample :
    Multivector.parityAcc (EuclideanSignature 4) 0 0 = some 0
    ∧ Multivector.sign (EuclideanSignature 4) 0 0 ≠ some 1 := by decide

/-- C1 (amended): for every pair of blade masks a and b, the sign factor
applied by the geometric product is MINUS one when the accumulated
parity is even and PLUS one when it is odd, where the parity is
accumulated exactly as specified: for each index set in b (lowest to
highest), XOR in the parity of the count of bits of a strictly below
that index, then for each index set in both a and b, XOR in the metric
signature value at that index (all values of the signatures in the
source being 0 or 1). -/
theorem c1_sign_convention :
    ∀ sig : Signature, (∀ i v, sig.value i = some v → v ≤ 1) →
      ∀ a b p : Nat, Multivector.parityAcc sig a b = some p →
        Multivector.sign sig a b = some (if p % 2 = 0 then -1 else 1) := by
  intro sig hsig a b p hp
  have hp1 : p ≤ 1 := Multivector.parityAcc_le_one sig hsig a b p hp
  rw [Multivector.sign, hp]
  have h01 : p = 0 ∨ p = 1 := by omega
  rcases h01 with h | h <;> subst h
  · simp [Multivector.signOfParity_zero]
  · simp [Multivector.signOfParity_one]

/-- C1 witness: the amended convention at the Euclidean signature with
a = 1, b = 2, where the accumulated parity is 1 (odd) and the sign is
therefore +1. -/
theorem c1_witness :
    Multivector.sign (EuclideanSignature 4) 1 2 = some (if 1 % 2 = 0 then -1 else 1) :=
  c1_sign_convention (EuclideanSignature 4)
    (fun i v h => by injection h with h; omega) 1 2 1 (by decide)

/-- C2 counterexample: under the Euclidean signature with 3 basis
vectors, the triple geometric product e0 * e1 * e2 yields the single
blade with coefficient -1 and mask 7, not coefficient 1 as claimed. -/
theorem c2_counterexample :
    ((Multivector.basis_vector (EuclideanSignature 3) 0).bind fun e0 =>
      (Multivector.basis_vector (EuclideanSignature 3) 1).bind fun e1 =>
        (Multivector.basis_vector (EuclideanSignature 3) 2).bind fun e2 =>
          (Multivector.mul (EuclideanSignature 3) e0 e1).bind fun x =>
            Multivector.mul (EuclideanSignature 3) x e2) = some [⟨-1, 7⟩]
    ∧ some [(⟨-1, 7⟩ : Blade)] ≠ some [(⟨1, 7⟩ : Blade)] := by decide

/-- C2 (amended): under a Euclidean signature with at least 3 basis
vectors, basis_vector(0) * basis_vector(1) yields the single blade
(1, mask 3), basis_vector(1) * basis_vector(0) yields (-1, mask 3),
basis_vector(0) * basis_vector(0) yields (1, mask 0), and the triple
product basis_vector(0) * basis_vector(1) * basis_vector(2) yields the
single blade with coefficient MINUS one and mask 7. -/
theorem c2_basis_products :
    ∀ (d : Nat) (e0 e1 e2 : Multivector), 3 ≤ d →
      Multivector.basis_vector (EuclideanSignature d) 0 = some e0 →
      Multivector.basis_vector (EuclideanSignature d) 1 = some e1 →
      Multivector.basis_vector (EuclideanSignature d) 2 = some e2 →
      Multivector.mul (EuclideanSignature d) e0 e1 = some [⟨1, 3⟩]
      ∧ Multivector.mul (EuclideanSignature d) e1 e0 = some [⟨-1, 3⟩]
      ∧ Multivector.mul (EuclideanSignature d) e0 e0 = some [⟨1, 0⟩]
      ∧ (Multivector.mul (EuclideanSignature d) e0 e1).bind
          (fun x => Multivector.mul (EuclideanSignature d) x e2) = some [⟨-1, 7⟩] := by
  intro d e0 e1 e2 hd h0 h1 h2
  rw [Multivector.basis_vector_euclid d 0 (by omega)] at h0
  rw [Multivector.basis_vector_euclid d 1 (by omega)] at h1
  rw [Multivector.basis_vector_euclid d 2 (by omega)] at h2
  injection h0 with h0
  injection h1 with h1
  injection h2 with h2
  subst h0
  subst h1
  subst h2
  refine ⟨rfl, rfl, rfl, rfl⟩

/-- C2 witness: the four products at the Euclidean signature with
exactly 3 basis vectors and the concrete basis vectors. -/
theorem c2_witness :
    Multivector.mul (EuclideanSignature 3) [⟨1, 1 <<< 0⟩] [⟨1, 1 <<< 1⟩] = some [⟨1, 3⟩]
    ∧ Multivector.mul (EuclideanSignature 3) [⟨1, 1 <<< 1⟩] [⟨1, 1 <<< 0⟩]
        = some [⟨-1, 3⟩]
    ∧ Multivector.mul (EuclideanSignature 3) [⟨1, 1 <<< 0⟩] [⟨1, 1 <<< 0⟩]
        = some [⟨1, 0⟩]
    ∧ (Multivector.mul (EuclideanSignature 3) [⟨1, 1 <<< 0⟩] [⟨1, 1 <<< 1⟩]).bind
        (fun x => Multivector.mul (EuclideanSignature 3) x [⟨1, 1 <<< 2⟩])
        = some [⟨-1, 7⟩] :=
  c2_basis_products 3 [⟨1, 1 <<< 0⟩] [⟨1, 1 <<< 1⟩] [⟨1, 1 <<< 2⟩] (by omega)
    (by decide) (by decide) (by decide)

/-- C6 counterexample: with A = create((1, mask 0)) and s = 0, the
scalar product A * 0 is the empty multivector, not the blades of A with
coefficients multiplied by 0 (which would be the one-blade collection
(0, mask 0)): the blade count is not preserved. -/
theorem c6_counterexample :
    Multivector.smul (Multivector.create [⟨1, 0⟩]) 0 = []
    ∧ (Multivector.create [⟨1, 0⟩]).map
        (fun b => (⟨0 * b.coefficient, b.mask⟩ : Blade)) = [⟨0, 0⟩]
    ∧ ([] : Multivector) ≠ [⟨0, 0⟩] := by decide

/-- C6 (amended): for every multivector A with pairwise-distinct masks
and all blade coefficients nonzero, and every NONZERO scalar s, A * s
yields exactly the blades of A with each coefficient multiplied by s
(same masks, same blade count), and the commuted form s * A yields the
same multivector. -/
theorem c6_scalar_mul :
    ∀ (A : Multivector) (s : ℚ), (Multivector.masks A).Nodup → s ≠ 0 →
      (∀ b ∈ A, b.coefficient ≠ 0) →
      Multivector.smul A s = A.map (fun b => ⟨s * b.coefficient, b.mask⟩)
      ∧ Multivector.smulLeft s A = Multivector.smul A s := by
  intro A s hnd hs hnz
  refine ⟨?_, rfl⟩
  have h := Multivector.foldl_add_blade_fresh
    (fun b : Blade => s * b.coefficient) Blade.mask A []
    hnd (fun b hb => mul_ne_zero hs (hnz b hb))
    (fun b _ hm => by simp [Multivector.masks] at hm)
  rw [Multivector.smul]
  simpa using h

/-- C6 witness: scalar multiplication of the single blade (2, mask 1)
by 3, which yields (6, mask 1). -/
theorem c6_witness :
    Multivector.smul [⟨2, 1⟩] 3 = [⟨6, 1⟩]
    ∧ Multivector.smulLeft 3 [⟨2, 1⟩] = Multivector.smul [⟨2, 1⟩] 3 := by
  have h := c6_scalar_mul [⟨2, 1⟩] 3 (by decide) (by norm_num) (by decide)
  refine ⟨?_, h.2⟩
  rw [h.1]
  norm_num

/-- C7 counterexample: A = create((1, mask 0), (-1, mask 0)) is the
one-blade collection with coefficient 0; reverse drops that zero
coefficient at insertion, so A.reverse().reverse() is the empty
multivector, which differs from A. -/
theorem c7_counterexample :
    Multivector.reverse (Multivector.reverse (Multivector.create [⟨1, 0⟩, ⟨-1, 0⟩]))
      ≠ Multivector.create [⟨1, 0⟩, ⟨-1, 0⟩]
    ∧ Multivector.create [⟨1, 0⟩, ⟨-1, 0⟩] = [⟨0, 0⟩]
    ∧ Multivector.reverse [⟨0, 0⟩] = [] := by decide

/-- C7 (amended): for every multivector A with pairwise-distinct masks
whose blades all have nonzero coefficients, A.reverse().reverse()
equals A (same blade list with the same coefficients). -/
theorem c7_reverse_involution :
    ∀ A : Multivector, (Multivector.masks A).Nodup →
      (∀ b ∈ A, b.coefficient ≠ 0) →
      Multivector.reverse (Multivector.reverse A) = A := by
  intro A hnd hnz
  rw [Multivector.reverse_map A hnd hnz]
  have hmasks : Multivector.masks (A.map (fun b =>
      (⟨b.coefficient * (Multivector.reverseSign b.mask : ℚ), b.mask⟩ : Blade)))
      = Multivector.masks A := by
    rw [Multivector.masks, Multivector.masks, List.map_map]
    rfl
  have hnd2 : (Multivector.masks (A.map (fun b =>
      (⟨b.coefficient * (Multivector.reverseSign b.mask : ℚ), b.mask⟩ : Blade)))).Nodup := by
    rw [hmasks]
    exact hnd
  have hnz2 : ∀ b ∈ A.map (fun b =>
      (⟨b.coefficient * (Multivector.reverseSign b.mask : ℚ), b.mask⟩ : Blade)),
      b.coefficient ≠ 0 := by
    intro b hb
    obtain ⟨a, ha, rfl⟩ := List.mem_map.mp hb
    exact mul_ne_zero (hnz a ha) (Multivector.reverseSign_cast_ne_zero a.mask)
  rw [Multivector.reverse_map _ hnd2 hnz2, List.map_map]
  have hpt : ∀ b ∈ A,
      ((fun b : Blade =>
          (⟨b.coefficient * (Multivector.reverseSign b.mask : ℚ), b.mask⟩ : Blade)) ∘
        (fun b : Blade =>
          (⟨b.coefficient * (Multivector.reverseSign b.mask : ℚ), b.mask⟩ : Blade))) b
        = id b := by
    intro b _
    cases b with
    | mk c m =>
      simp only [Function.comp, id]
      rw [mul_assoc, Multivector.reverseSign_sq, mul_one]
  rw [List.map_congr_left hpt, List.map_id]

/-- C7 witness: the double reverse of the single grade-2 blade
(2, mask 3) returns it unchanged. -/
theorem c7_witness : Multivector.reverse (Multivector.reverse [⟨2, 3⟩]) = [⟨2, 3⟩] :=
  c7_reverse_involution [⟨2, 3⟩] (by decide) (by decide)

/-- C10: the scalar multivector S = create((1, mask 0)) is not a
multiplicative identity of the geometric product; for every multivector
A with pairwise-distinct masks whose blades all have nonzero
coefficients, and under every signature, S * A and A * S both equal A
with every blade coefficient negated (the sign factor is -1 whenever
the accumulated parity is 0, as it is when one operand mask is 0), so
S * A differs from A whenever A is nonempty. -/
theorem c10_scalar_unit_negates :
    ∀ (sig : Signature) (A : Multivector), (Multivector.masks A).Nodup →
      (∀ b ∈ A, b.coefficient ≠ 0) →
      Multivector.mul sig (Multivector.create [⟨1, 0⟩]) A
          = some (A.map (fun b => ⟨-b.coefficient, b.mask⟩))
      ∧ Multivector.mul sig A (Multivector.create [⟨1, 0⟩])
          = some (A.map (fun b => ⟨-b.coefficient, b.mask⟩))
      ∧ (A ≠ [] → Multivector.mul sig (Multivector.create [⟨1, 0⟩]) A ≠ some A) := by
  intro sig A hnd hnz
  have hcr : Multivector.create [⟨1, 0⟩] = [⟨1, 0⟩] := by decide
  have hmap := Multivector.foldl_neg_map A hnd hnz
  have h1 : Multivector.mul sig [⟨1, 0⟩] A
      = some (A.map (fun b => (⟨-b.coefficient, b.mask⟩ : Blade))) := by
    rw [Multivector.mul]
    simp only [Multivector.mulGo, Multivector.mulRow_scalar_left sig A]
    rw [hmap]
  have h2 : Multivector.mul sig A [⟨1, 0⟩]
      = some (A.map (fun b => (⟨-b.coefficient, b.mask⟩ : Blade))) := by
    rw [Multivector.mul, Multivector.mulGo_scalar_right sig A, hmap]
  refine ⟨by rw [hcr]; exact h1, by rw [hcr]; exact h2, ?_⟩
  intro hne
  rw [hcr, h1]
  intro heq
  injection heq with heq
  cases A with
  | nil => exact hne rfl
  | cons a t =>
    simp only [List.map_cons, List.cons.injEq] at heq
    have hc : -a.coefficient = a.coefficient := congrArg Blade.coefficient heq.1
    have hz : a.coefficient = 0 := by linarith
    exact hnz a (by simp) hz

/-- C10 witness: under the Euclidean signature, the scalar multivector
times the single blade (2, mask 1) yields (-2, mask 1). -/
theorem c10_witness :
    Multivector.mul (EuclideanSignature 4) (Multivector.create [⟨1, 0⟩]) [⟨2, 1⟩]
      = some [⟨-2, 1⟩] := by
  have h := (c10_scalar_unit_negates (EuclideanSignature 4) [⟨2, 1⟩] (by decide)
    (by decide)).1
  simpa using h
